import Mathlib

/-!
Shallow embedding of the order_helper allocation core and proofs about it.

Conventions of the embedding:
* Python `float` hour quantities are modelled as exact rationals (`ℚ`).
* A `datetime.date` is a day count (`Int`); a `datetime` is a possibly
  fractional day count (`ℚ`), and `.date()` is `Rat.floor`.
* A Python `dict` is an association list; assignment is modelled by
  `pyDictSet` (replace in place or append), which preserves insertion order.
* Python exceptions are modelled by `Option` (for the calculator) and
  `Except PyError` (for the agent handlers): `none` / `.error` means the
  call raised.
* Python's stable `sorted` is modelled by the stable insertion sort
  `pySorted`, extensionally equal to any stable sort of the same key order.
-/

namespace OrderHelper

/-- Priority levels, from `domain/models.py` `PriorityLevel` (an `Enum`
with values 0–5). -/
inductive PriorityLevel where
  | low
  | mediumLow
  | medium
  | mediumHigh
  | high
  | critical
deriving DecidableEq, Repr

/-- The numeric `.value` of a priority level. -/
def PriorityLevel.value : PriorityLevel → Int
  | .low => 0
  | .mediumLow => 1
  | .medium => 2
  | .mediumHigh => 3
  | .high => 4
  | .critical => 5

/-- `PriorityLevel(v)` in Python: `Enum` lookup by value.  `none` models the
`ValueError` raised on a value outside 0–5. -/
def PriorityLevel.ofValue : Int → Option PriorityLevel
  | 0 => some .low
  | 1 => some .mediumLow
  | 2 => some .medium
  | 3 => some .mediumHigh
  | 4 => some .high
  | 5 => some .critical
  | _ => none

/-- `domain/models.py` `Order`.  `due_date` and `doc_date` are datetimes
(fractional day counts). -/
structure Order where
  code : String
  description : String
  ordered_qty : Int
  consumed_qty : Int
  cycle_time : ℚ
  doc_number : String
  doc_date : ℚ
  due_date : ℚ
  priority_manual : Option Int := none
  calculated_priority : PriorityLevel := .medium
deriving DecidableEq, Repr

/-- `Order.pending_qty`: quantity still to produce. -/
def Order.pending_qty (o : Order) : Int :=
  o.ordered_qty - o.consumed_qty

/-- `Order.remaining_work_hours`: `pending_qty * cycle_time`. -/
def Order.remaining_work_hours (o : Order) : ℚ :=
  (o.pending_qty : ℚ) * o.cycle_time

/-- `domain/models.py` `Worker`.  `availability` maps a date to the hours
still free on that date; absent dates default to `hours_per_day`. -/
structure Worker where
  id : Int
  name : String
  hours_per_day : ℚ := 8
  skills : List String := []
  availability : List (Int × ℚ) := []
deriving DecidableEq, Repr

/-- `Worker.get_available_hours`: `availability.get(day, hours_per_day)`. -/
def Worker.get_available_hours (w : Worker) (day : Int) : ℚ :=
  (w.availability.lookup day).getD w.hours_per_day

/-- `Worker.allocate_hours`: allocates `min(available, hours)` on `day`,
stores the lowered availability, and returns the hours actually allocated
together with the updated worker. -/
def Worker.allocate_hours (w : Worker) (day : Int) (hours : ℚ) : ℚ × Worker :=
  let available := w.get_available_hours day
  let allocated := min available hours
  (allocated, { w with availability := (day, available - allocated) :: w.availability })

/-- `domain/models.py` `Allocation`. -/
structure Allocation where
  order_code : String
  worker_id : Int
  allocation_date : Int
  hours : ℚ
  completed : Bool := false
deriving DecidableEq, Repr

/-- `domain/models.py` `WorkSchedule`: an append-only list of allocations. -/
structure WorkSchedule where
  allocations : List Allocation := []
deriving DecidableEq, Repr

/-- `WorkSchedule.add_allocation` appends at the end, like `list.append`. -/
def WorkSchedule.add_allocation (s : WorkSchedule) (a : Allocation) : WorkSchedule :=
  { s with allocations := s.allocations ++ [a] }

/-- `WorkSchedule.get_order_schedule`: allocations whose `order_code` equals
the given string. -/
def WorkSchedule.get_order_schedule (s : WorkSchedule) (code : String) : List Allocation :=
  s.allocations.filter (fun a => a.order_code == code)

/-- `WorkSchedule.get_worker_schedule`. -/
def WorkSchedule.get_worker_schedule (s : WorkSchedule) (wid : Int) : List Allocation :=
  s.allocations.filter (fun a => a.worker_id == wid)

/-- `datetime.date()` on a fractional day count: truncation to the day. -/
def datetimeDate (t : ℚ) : Int := ⌊t⌋

/-- `planner/algorithms.py` `PriorityCalculator`. -/
structure PriorityCalculator where
  urgency_thresholds : List Int
  size_threshold : ℚ

/-- `PriorityCalculator.compute_priority` (algorithms.py lines 20–56).
`none` models a raised exception: either the `ValueError` from
`PriorityLevel(min(priority_manual, 5))` on a negative manual priority, or an
`IndexError` from a thresholds list shorter than three entries. -/
def PriorityCalculator.compute_priority (pc : PriorityCalculator) (o : Order)
    (today : Int) : Option PriorityLevel :=
  match o.priority_manual with
  | some m => PriorityLevel.ofValue (min m 5)
  | none =>
    let days_left := datetimeDate o.due_date - today
    do
      let urgency ←
        (do
          let t0 ← pc.urgency_thresholds[0]?
          if days_left ≤ t0 then pure (3 : Int)
          else do
            let t1 ← pc.urgency_thresholds[1]?
            if days_left ≤ t1 then pure 2
            else do
              let t2 ← pc.urgency_thresholds[2]?
              if days_left ≤ t2 then pure 1 else pure 0)
      let size_hours := (o.pending_qty : ℚ) * o.cycle_time
      let size : Int := if pc.size_threshold < size_hours then 1 else 0
      PriorityLevel.ofValue (min (urgency + size + 1) 5)

/-- Stable insertion into a list sorted by the boolean preorder `le`: the new
element goes in front of the first entry it compares `le` to, hence after all
earlier entries that tie with it. -/
def sortedInsert (le : α → α → Bool) (x : α) : List α → List α
  | [] => [x]
  | y :: ys => if le x y then x :: y :: ys else y :: sortedInsert le x ys

/-- Stable sort, modelling Python's `sorted` (which is a stable sort; any two
stable sorts of the same total preorder agree pointwise). -/
def pySorted (le : α → α → Bool) : List α → List α
  | [] => []
  | x :: xs => sortedInsert le x (pySorted le xs)

/-- The sort key of `Scheduler.prioritize_orders` (algorithms.py line 90):
ascending lexicographic on `(5 - calculated_priority.value, due_date)`. -/
def priorityKeyLe (a b : Order) : Bool :=
  decide (5 - a.calculated_priority.value < 5 - b.calculated_priority.value) ||
    (decide (5 - a.calculated_priority.value = 5 - b.calculated_priority.value) &&
      decide (a.due_date ≤ b.due_date))

/-- `Scheduler.prioritize_orders` (algorithms.py lines 73–91): store the
computed priority on each order, then stable-sort by `priorityKeyLe`.
`none` models a priority computation that raised. -/
def prioritizeOrders (pc : PriorityCalculator) (orders : List Order)
    (today : Int) : Option (List Order) := do
  let os ← orders.mapM (fun o => do
    let p ← pc.compute_priority o today
    pure { o with calculated_priority := p })
  pure (pySorted priorityKeyLe os)

/-- Eligibility test of algorithms.py line 132: empty skill set, or the
order's code among the skills. -/
def eligible (w : Worker) (code : String) : Bool :=
  w.skills.isEmpty || w.skills.contains code

/-- Indexes (in master-list order) of the workers eligible for `code`
(algorithms.py lines 130–133).  Workers are identified by their position in
the scheduler's list, which models Python object identity. -/
def eligibleIdx (ws : List Worker) (code : String) : List Nat :=
  (List.range ws.length).filter (fun i =>
    match ws[i]? with
    | some w => eligible w code
    | none => false)

/-- Sort key of algorithms.py lines 136–140: available hours on `day`,
descending (`reverse=True`), stable. -/
def availLe (ws : List Worker) (day : Int) (i j : Nat) : Bool :=
  decide (((ws[j]?).map (fun w => w.get_available_hours day)).getD 0
      ≤ ((ws[i]?).map (fun w => w.get_available_hours day)).getD 0)

/-- Inner worker loop of `Scheduler.create_schedule` (algorithms.py lines
145–164): walk the sorted eligible workers, allocate, record positive
allocations, and stop once the order's remaining hours reach zero.  State is
`(workers, schedule, remaining_hours)`. -/
def allocWorkers (code : String) (day : Int) :
    List Nat → List Worker → WorkSchedule → ℚ → List Worker × WorkSchedule × ℚ
  | [], ws, sched, rem => (ws, sched, rem)
  | i :: rest, ws, sched, rem =>
    match ws[i]? with
    | none => (ws, sched, rem)
    | some w =>
      let p := w.allocate_hours day rem
      let ws' := ws.set i p.2
      if 0 < p.1 then
        let sched' := sched.add_allocation
          { order_code := code, worker_id := w.id, allocation_date := day, hours := p.1 }
        let rem' := rem - p.1
        if rem' ≤ 0 then (ws', sched', rem')
        else allocWorkers code day rest ws' sched' rem'
      else allocWorkers code day rest ws' sched rem

/-- Day loop of `Scheduler.create_schedule` (algorithms.py lines 125–164):
for each work date, filter and sort the eligible workers and allocate; stop
as soon as the order's remaining hours reach zero. -/
def allocDays (code : String) :
    List Int → List Worker → WorkSchedule → ℚ → List Worker × WorkSchedule × ℚ
  | [], ws, sched, rem => (ws, sched, rem)
  | day :: rest, ws, sched, rem =>
    if rem ≤ 0 then (ws, sched, rem)
    else
      let sortedIdx := pySorted (availLe ws day) (eligibleIdx ws code)
      let s := allocWorkers code day sortedIdx ws sched rem
      allocDays code rest s.1 s.2.1 s.2.2

/-- Order loop of `Scheduler.create_schedule` (algorithms.py lines 118–164):
orders with no remaining work are skipped; the rest are allocated over the
work dates. -/
def allocOrders (dates : List Int) :
    List Order → List Worker → WorkSchedule → List Worker × WorkSchedule
  | [], ws, sched => (ws, sched)
  | o :: rest, ws, sched =>
    let rem := o.remaining_work_hours
    if rem ≤ 0 then allocOrders dates rest ws sched
    else
      let s := allocDays o.code dates ws sched rem
      allocOrders dates rest s.1 s.2.1

/-- The work dates of algorithms.py line 115: `start_date + i` for
`i < days_ahead`. -/
def workDates (start_date : Int) (days_ahead : Nat) : List Int :=
  (List.range days_ahead).map (fun (i : Nat) => start_date + (i : Int))

/-- `planner/algorithms.py` `Scheduler` (its configuration; the mutable
schedule and worker availability are threaded explicitly). -/
structure Scheduler where
  workers : List Worker
  priority_calculator : PriorityCalculator

/-- `Scheduler.create_schedule` (algorithms.py lines 93–166): prioritize the
orders, reset the schedule and every worker's availability, then greedily
allocate.  Returns the schedule together with the final worker states;
`none` models a raised exception during prioritization. -/
def Scheduler.create_schedule (s : Scheduler) (orders : List Order)
    (start_date : Int) (days_ahead : Nat := 30) :
    Option (WorkSchedule × List Worker) := do
  let prioritized ← prioritizeOrders s.priority_calculator orders start_date
  let ws0 := s.workers.map (fun w => { w with availability := [] })
  let r := allocOrders (workDates start_date days_ahead) prioritized ws0 {}
  pure (r.2, r.1)

/-- Python `dict` assignment `d[k] = v` on an insertion-ordered association
list: replace in place if the key is present, else append. -/
def pyDictSet [BEq κ] : List (κ × β) → κ → β → List (κ × β)
  | [], k, v => [(k, v)]
  | (k', v') :: rest, k, v =>
    if k' == k then (k', v) :: rest else (k', v') :: pyDictSet rest k v

/-- Latest allocation date of a nonempty allocation list (`max(...)` of
algorithms.py line 187); `0` on the empty list, which `check_delays` never
queries. -/
def maxAllocDate : List Allocation → Int
  | [] => 0
  | a :: rest => rest.foldl (fun m b => max m b.allocation_date) a.allocation_date

/-- Loop body of `Scheduler.check_delays` (algorithms.py lines 179–192):
skip orders with no allocations; otherwise compare the completion date (the
latest allocation date) to the due date and record a positive delay. -/
def checkDelaysBody (sched : WorkSchedule) (delays : List (String × Int))
    (o : Order) : List (String × Int) :=
  match sched.get_order_schedule o.code with
  | [] => delays
  | _ =>
    if datetimeDate o.due_date < maxAllocDate (sched.get_order_schedule o.code) then
      pyDictSet delays o.code
        (maxAllocDate (sched.get_order_schedule o.code) - datetimeDate o.due_date)
    else delays

/-- `Scheduler.check_delays` (algorithms.py lines 168–194): for each order
with at least one allocation whose completion date exceeds its due date,
record the difference, keyed by the order's code. -/
def check_delays (sched : WorkSchedule) (orders : List Order) : List (String × Int) :=
  orders.foldl (checkDelaysBody sched) []

/-! Concrete fixtures, mirroring `tests/test_algorithms.py` and the worked
examples of the specification. -/

/-- Thresholds `[2, 5, 10]` and size threshold `8`, as in the tests. -/
def exCalc : PriorityCalculator := ⟨[2, 5, 10], 8⟩

/-- A single 8-hours-per-day worker with no skill restrictions. -/
def exWorker : Worker := { id := 1, name := "W1", hours_per_day := 8 }

/-- Order `A`: 5 pending hours, due on day 2. -/
def exOrderA : Order :=
  { code := "A", description := "test", ordered_qty := 5, consumed_qty := 0,
    cycle_time := 1, doc_number := "D1", doc_date := 0, due_date := 2 }

/-- Order `B`: 20 pending hours, due on day 0 (it will run late). -/
def exOrderB : Order :=
  { code := "B", description := "big", ordered_qty := 20, consumed_qty := 0,
    cycle_time := 1, doc_number := "D2", doc_date := 0, due_date := 0 }

/-- Order `C`: negative pending quantity (consumed exceeds ordered). -/
def exOrderC : Order :=
  { code := "C", description := "done", ordered_qty := 3, consumed_qty := 5,
    cycle_time := 1, doc_number := "D3", doc_date := 0, due_date := 4 }

/-- The spec's priority example: 10 pending work-hours, due in 1 day. -/
def exOrderTen : Order :=
  { code := "T", description := "ten", ordered_qty := 10, consumed_qty := 0,
    cycle_time := 1, doc_number := "D4", doc_date := 0, due_date := 1 }

/-- A scheduler over the single example worker. -/
def exScheduler : Scheduler := ⟨[exWorker], exCalc⟩

/-! Spec-side restatements of the priority formula, written from the words of
the specification so they can be compared with `compute_priority`. -/

/-- Urgency tier as the spec words it: 3/2/1/0 from three ascending
day-count thresholds applied to the days left. -/
def urgencyOfDaysLeft (t0 t1 t2 days_left : Int) : Int :=
  if days_left ≤ t0 then 3
  else if days_left ≤ t1 then 2
  else if days_left ≤ t2 then 1
  else 0

/-- Size bit as the spec words it: 1 exactly when `pending × cycle_time`
exceeds the size threshold. -/
def sizeBit (threshold : ℚ) (pending : Int) (cycle : ℚ) : Int :=
  if threshold < (pending : ℚ) * cycle then 1 else 0

/-- `PriorityLevel.ofValue` succeeds exactly on 0–5 and returns a level
carrying that value. -/
theorem ofValue_value {v : Int} (h0 : 0 ≤ v) (h5 : v ≤ 5) :
    ∃ l, PriorityLevel.ofValue v = some l ∧ l.value = v := by
  interval_cases v <;> exact ⟨_, rfl, rfl⟩

/-- `PriorityLevel.ofValue` on a negative value models the `ValueError`
raised by `PriorityLevel(v)`. -/
theorem ofValue_neg {v : Int} (h : v < 0) : PriorityLevel.ofValue v = none := by
  match v, h with
  | .negSucc n, _ => rfl

/-- Order with a manual priority override of `-1`. -/
def exOrderNeg : Order := { exOrderA with priority_manual := some (-1) }

/-- Order with a manual priority override of `7`. -/
def exOrderSeven : Order := { exOrderA with priority_manual := some 7 }

/-- The urgency tier is never negative. -/
theorem urgencyOfDaysLeft_nonneg (t0 t1 t2 d : Int) :
    0 ≤ urgencyOfDaysLeft t0 t1 t2 d := by
  unfold urgencyOfDaysLeft
  split_ifs <;> norm_num

/-- The size bit is never negative. -/
theorem sizeBit_nonneg (th : ℚ) (p : Int) (c : ℚ) : 0 ≤ sizeBit th p c := by
  unfold sizeBit
  split_ifs <;> norm_num

/-- `compute_priority` without a manual override computes exactly
`PriorityLevel.ofValue (min (urgency + size + 1) 5)` with urgency and size as
the spec words them. -/
theorem compute_priority_no_override (pc : PriorityCalculator) (o : Order)
    (today t0 t1 t2 : Int)
    (hth : pc.urgency_thresholds = [t0, t1, t2]) (hm : o.priority_manual = none) :
    pc.compute_priority o today =
      PriorityLevel.ofValue
        (min (urgencyOfDaysLeft t0 t1 t2 (datetimeDate o.due_date - today)
          + sizeBit pc.size_threshold o.pending_qty o.cycle_time + 1) 5) := by
  simp only [PriorityCalculator.compute_priority, hm, hth, urgencyOfDaysLeft, sizeBit,
    List.getElem?_cons_zero, List.getElem?_cons_succ, Option.bind_eq_bind,
    Option.some_bind, Option.pure_def]
  split_ifs <;> rfl

/-- C2: for every order without a manual override, `compute_priority` returns
a level whose value is `min (urgency + size + 1) 5`, with urgency the 3/2/1/0
tier from the three ascending thresholds applied to
`days_left = due_date − today` and size 1 exactly when
`pending × cycle_time` exceeds the size threshold; and with thresholds
`[2, 5, 10]` and size threshold `8`, an order with 10 pending work-hours due
in 1 day gets priority 5 (critical). -/
theorem compute_priority_formula (pc : PriorityCalculator) (o : Order)
    (today t0 t1 t2 : Int)
    (hth : pc.urgency_thresholds = [t0, t1, t2]) (hm : o.priority_manual = none) :
    (∃ l, pc.compute_priority o today = some l ∧
        l.value = min (urgencyOfDaysLeft t0 t1 t2 (datetimeDate o.due_date - today)
          + sizeBit pc.size_threshold o.pending_qty o.cycle_time + 1) 5) ∧
      exCalc.compute_priority exOrderTen 0 = some PriorityLevel.critical := by
  refine ⟨?_, by norm_num [PriorityCalculator.compute_priority, exCalc, exOrderTen,
    datetimeDate, Order.pending_qty, PriorityLevel.ofValue]⟩
  have hkey := compute_priority_no_override pc o today t0 t1 t2 hth hm
  have h0 : 0 ≤ min (urgencyOfDaysLeft t0 t1 t2 (datetimeDate o.due_date - today)
      + sizeBit pc.size_threshold o.pending_qty o.cycle_time + 1) 5 := by
    have hu := urgencyOfDaysLeft_nonneg t0 t1 t2 (datetimeDate o.due_date - today)
    have hs := sizeBit_nonneg pc.size_threshold o.pending_qty o.cycle_time
    omega
  have h5 : min (urgencyOfDaysLeft t0 t1 t2 (datetimeDate o.due_date - today)
      + sizeBit pc.size_threshold o.pending_qty o.cycle_time + 1) 5 ≤ 5 :=
    min_le_right _ _
  obtain ⟨l, hl, hv⟩ := ofValue_value h0 h5
  exact ⟨l, by rw [hkey, hl], hv⟩

/-- Witness for C2 at thresholds `[2, 5, 10]`, size threshold `8`, order `A`
(5 pending hours, due on day 2, no override), today = day 0. -/
theorem compute_priority_formula_witness :
    (∃ l, exCalc.compute_priority exOrderA 0 = some l ∧
        l.value = min (urgencyOfDaysLeft 2 5 10 (datetimeDate exOrderA.due_date - 0)
          + sizeBit exCalc.size_threshold exOrderA.pending_qty exOrderA.cycle_time + 1) 5) ∧
      exCalc.compute_priority exOrderTen 0 = some PriorityLevel.critical :=
  compute_priority_formula exCalc exOrderA 0 2 5 10 rfl rfl

/-- C3 counterexample: a manual override of `-1` does not pass through as the
result; `compute_priority` raises (`PriorityLevel(-1)` is a `ValueError`),
modelled as `none`. -/
theorem negative_override_raises :
    exCalc.compute_priority exOrderNeg 0 = none := by decide

/-- C3 as amended: with a manual override `m`, `compute_priority` evaluates
`PriorityLevel.ofValue (min m 5)` regardless of due date, pending quantity
and thresholds; values above 5 are clamped to 5 (for `0 ≤ m` the result is a
level of value `min m 5`), while a negative override is not clamped and makes
the priority-level construction fail, so the call raises instead of
returning. -/
theorem manual_override_clamped (pc : PriorityCalculator) (o : Order)
    (today m : Int) (hm : o.priority_manual = some m) :
    pc.compute_priority o today = PriorityLevel.ofValue (min m 5) ∧
      (0 ≤ m → ∃ l, pc.compute_priority o today = some l ∧ l.value = min m 5) ∧
      (m < 0 → pc.compute_priority o today = none) := by
  have hbase : pc.compute_priority o today = PriorityLevel.ofValue (min m 5) := by
    simp [PriorityCalculator.compute_priority, hm]
  refine ⟨hbase, fun h0 => ?_, fun hneg => ?_⟩
  · have h0' : 0 ≤ min m 5 := le_min h0 (by norm_num)
    obtain ⟨l, hl, hv⟩ := ofValue_value h0' (min_le_right _ _)
    exact ⟨l, by rw [hbase, hl], hv⟩
  · rw [hbase, ofValue_neg (by omega)]

/-- Witness for the amended C3 at an override of `7` (clamped to 5). -/
theorem manual_override_clamped_witness :
    exCalc.compute_priority exOrderSeven 0 = PriorityLevel.ofValue (min 7 5) ∧
      (0 ≤ (7 : Int) → ∃ l, exCalc.compute_priority exOrderSeven 0 = some l ∧
        l.value = min 7 5) ∧
      ((7 : Int) < 0 → exCalc.compute_priority exOrderSeven 0 = none) :=
  manual_override_clamped exCalc exOrderSeven 0 7 rfl

/-- A second order sharing product code `A` but with document number `D5`. -/
def exOrderA2 : Order := { exOrderA with doc_number := "D5", description := "twin" }

set_option maxHeartbeats 1000000 in
/-- C5: allocations do not reference the document number.  The schedule built
for order `A` (document number `D1`) stores the product code `"A"` in
`order_code`; querying the schedule by the document number returns nothing,
and the allocations of two distinct orders that share the product code are
pooled under that code, indistinguishable by order.  This contradicts the
claim that every allocation references the order's document number. -/
theorem allocation_uses_product_code :
    exScheduler.create_schedule [exOrderA] 0 3 =
        some (⟨[⟨"A", 1, 0, 5, false⟩]⟩, [⟨1, "W1", 8, [], [(0, 3)]⟩]) ∧
      exOrderA.doc_number = "D1" ∧
      WorkSchedule.get_order_schedule ⟨[⟨"A", 1, 0, 5, false⟩]⟩ "D1" = [] ∧
      WorkSchedule.get_order_schedule ⟨[⟨"A", 1, 0, 5, false⟩]⟩ "A" =
        [⟨"A", 1, 0, 5, false⟩] ∧
      exScheduler.create_schedule [exOrderA, exOrderA2] 0 3 =
        some (⟨[⟨"A", 1, 0, 5, false⟩, ⟨"A", 1, 0, 3, false⟩, ⟨"A", 1, 1, 2, false⟩]⟩,
          [⟨1, "W1", 8, [], [(1, 6), (0, 0), (0, 3)]⟩]) ∧
      WorkSchedule.get_order_schedule
          ⟨[⟨"A", 1, 0, 5, false⟩, ⟨"A", 1, 0, 3, false⟩, ⟨"A", 1, 1, 2, false⟩]⟩ "D5" = [] := by
  refine ⟨?_, rfl, rfl, rfl, ?_, rfl⟩ <;>
    (repeat
      first
      | rfl
      | norm_num [Scheduler.create_schedule, prioritizeOrders, exScheduler, exOrderA,
          exOrderA2, exCalc, exWorker, PriorityCalculator.compute_priority, datetimeDate,
          Order.pending_qty, PriorityLevel.ofValue, pySorted, sortedInsert, priorityKeyLe,
          allocOrders, allocDays, allocWorkers, workDates, eligibleIdx, eligible, availLe,
          Worker.allocate_hours, Worker.get_available_hours, Order.remaining_work_hours,
          WorkSchedule.add_allocation, List.range_succ, List.mapM.loop, PriorityLevel.value]
      | simp only [List.lookup, Int.reduceBEq, beq_self_eq_true, Option.getD_some,
          Option.getD_none])

/-! Embedding of the event objects of `domain/events.py` and of the
coordinator handlers of `planner/planner_agent.py`.  Events are modelled as
Python objects: a dictionary of attributes built exactly as the class
`__init__` chains build them; attribute access on a missing name models
`AttributeError`, a keyword argument outside an `__init__` signature models
`TypeError`. -/

/-- A value stored in an event attribute. -/
inductive PyVal where
  | str (s : String)
  | int (n : Int)
  | rat (q : ℚ)
  | noneVal
  | dateMap (m : List (Int × ℚ))
deriving DecidableEq, Repr

/-- The attribute dictionary of a Python object. -/
abbrev PyAttrs := List (String × PyVal)

/-- Python `getattr`: `none` models a raised `AttributeError`. -/
def pyGetAttr (obj : PyAttrs) (name : String) : Option PyVal :=
  obj.lookup name

/-- Exceptions raised by the embedded agent code. -/
inductive PyError where
  | attributeError (attr : String)
  | typeError (kwarg : String)
  | valueError
deriving DecidableEq, Repr

/-- Read a string attribute (used for `event.doc_number`). -/
def pyAttrStr (e : PyAttrs) (n : String) : Except PyError String :=
  match e.lookup n with
  | some (.str s) => .ok s
  | some _ => .error .valueError
  | none => .error (.attributeError n)

/-- Read an integer attribute. -/
def pyAttrInt (e : PyAttrs) (n : String) : Except PyError Int :=
  match e.lookup n with
  | some (.int k) => .ok k
  | some _ => .error .valueError
  | none => .error (.attributeError n)

/-- Read a rational (datetime) attribute. -/
def pyAttrRat (e : PyAttrs) (n : String) : Except PyError ℚ :=
  match e.lookup n with
  | some (.rat q) => .ok q
  | some _ => .error .valueError
  | none => .error (.attributeError n)

/-- Read an optional-integer attribute (used for `priority_manual`). -/
def pyAttrOptInt (e : PyAttrs) (n : String) : Except PyError (Option Int) :=
  match e.lookup n with
  | some (.int k) => .ok (some k)
  | some .noneVal => .ok none
  | some _ => .error .valueError
  | none => .error (.attributeError n)

/-- The attributes set by `OrderUpdated.__init__` (events.py lines 34–43):
`type` and `timestamp` from `Event`, `order_code` from `OrderEvent`, then the
quantity/date/priority fields.  There is no `doc_number` attribute. -/
def OrderUpdatedInit (order_code : String) (ordered_qty consumed_qty : Int)
    (due_date : ℚ) (priority_manual : Option Int) (ts : ℚ) : PyAttrs :=
  [("type", .str "order_updated"), ("timestamp", .rat ts),
   ("order_code", .str order_code),
   ("ordered_qty", .int ordered_qty), ("consumed_qty", .int consumed_qty),
   ("due_date", .rat due_date),
   ("priority_manual", match priority_manual with | some m => .int m | none => .noneVal)]

/-- The attributes set by `BidResponse.__init__` (events.py lines 72–80):
`order_code`, `worker_id`, `capacity`, `proposed_dates`.  There is no
`doc_number` attribute. -/
def BidResponseInit (order_code : String) (worker_id : Int) (capacity : ℚ)
    (proposed_dates : List (Int × ℚ)) (ts : ℚ) : PyAttrs :=
  [("type", .str "bid_response"), ("timestamp", .rat ts),
   ("order_code", .str order_code), ("worker_id", .int worker_id),
   ("capacity", .rat capacity), ("proposed_dates", .dateMap proposed_dates)]

/-- The attributes set by `ProgressUpdate.__init__` (events.py lines
92–99).  There is no `doc_number` attribute. -/
def ProgressUpdateInit (order_code : String) (worker_id qty_done : Int)
    (allocation_date : Int) (ts : ℚ) : PyAttrs :=
  [("type", .str "progress_update"), ("timestamp", .rat ts),
   ("order_code", .str order_code), ("worker_id", .int worker_id),
   ("qty_done", .int qty_done), ("allocation_date", .int allocation_date)]

/-- The attributes set by `PriorityChange.__init__` (events.py lines
102–107).  There is no `doc_number` attribute. -/
def PriorityChangeInit (order_code : String) (new_priority : Int) (ts : ℚ) : PyAttrs :=
  [("type", .str "priority_change"), ("timestamp", .rat ts),
   ("order_code", .str order_code), ("new_priority", .int new_priority)]

/-- The keyword parameters accepted by `BidRequest.__init__` (events.py line
66): `order_code`, `work_hours`, `due_date`, `timestamp` — and nothing
else.  In particular not `doc_number`. -/
def BidRequestParams : List String :=
  ["order_code", "work_hours", "due_date", "timestamp"]

/-- Python keyword-call check: the first keyword argument not accepted by the
callee's signature, if any (such a call raises `TypeError`). -/
def pyCallCheck (params : List String) (kwargs : List String) : Option String :=
  kwargs.find? (fun k => !params.contains k)

/-- The coordinator's mutable state (planner_agent.py lines 27–30): orders
and active bid rounds keyed by document number, plus the current schedule. -/
structure PlannerState where
  orders : List (String × Order) := []
  active_bids : List (String × List PyAttrs) := []
  schedule : WorkSchedule := {}
deriving DecidableEq, Repr

/-- `PlannerAgent.recalculate_schedule` (planner_agent.py lines 277–294):
rebuild the schedule over the orders with positive pending quantity; delays
are computed only for logging. -/
def recalculate_schedule (S : Scheduler) (today : Int) (st : PlannerState) :
    Except PyError PlannerState :=
  let active := (st.orders.map Prod.snd).filter (fun o => 0 < o.pending_qty)
  match S.create_schedule active today 30 with
  | some r =>
    let _delays := check_delays r.1 active
    .ok { st with schedule := r.1 }
  | none => .error .valueError

/-- `PlannerAgent.handle_order_updated` (planner_agent.py lines 90–120).
The handler first evaluates `event.doc_number`; an unknown document number is
ignored with no state change; otherwise the order is mutated, its priority
recomputed, and the schedule rebuilt. -/
def handle_order_updated (S : Scheduler) (today : Int) (st : PlannerState)
    (event : PyAttrs) : Except PyError PlannerState := do
  let order_code ← pyAttrStr event "doc_number"
  match st.orders.lookup order_code with
  | none => pure st
  | some o => do
    let ordered ← pyAttrInt event "ordered_qty"
    let consumed ← pyAttrInt event "consumed_qty"
    let due ← pyAttrRat event "due_date"
    let pm ← pyAttrOptInt event "priority_manual"
    let o := { o with ordered_qty := ordered, consumed_qty := consumed, due_date := due }
    let o := match pm with | some m => { o with priority_manual := some m } | none => o
    let p ← match S.priority_calculator.compute_priority o today with
      | some p => Except.ok p
      | none => Except.error PyError.valueError
    let o := { o with calculated_priority := p }
    recalculate_schedule S today { st with orders := pyDictSet st.orders order_code o }

/-- `PlannerAgent.handle_priority_change` (planner_agent.py lines 166–190). -/
def handle_priority_change (S : Scheduler) (today : Int) (st : PlannerState)
    (event : PyAttrs) : Except PyError PlannerState := do
  let order_code ← pyAttrStr event "doc_number"
  match st.orders.lookup order_code with
  | none => pure st
  | some o => do
    let np ← pyAttrInt event "new_priority"
    let o := { o with priority_manual := some np }
    let p ← match S.priority_calculator.compute_priority o today with
      | some p => Except.ok p
      | none => Except.error PyError.valueError
    let o := { o with calculated_priority := p }
    recalculate_schedule S today { st with orders := pyDictSet st.orders order_code o }

/-- `PlannerAgent.handle_progress_update` (planner_agent.py lines 141–164). -/
def handle_progress_update (S : Scheduler) (today : Int) (st : PlannerState)
    (event : PyAttrs) : Except PyError PlannerState := do
  let order_code ← pyAttrStr event "doc_number"
  match st.orders.lookup order_code with
  | none => pure st
  | some o => do
    let qty ← pyAttrInt event "qty_done"
    let o := { o with consumed_qty := o.consumed_qty + qty }
    let st := { st with orders := pyDictSet st.orders order_code o }
    if o.ordered_qty ≤ o.consumed_qty then pure st
    else recalculate_schedule S today st

/-- `PlannerAgent.handle_bid_response` (planner_agent.py lines 122–139).
The returned boolean is true exactly when the round closed, i.e. when
`process_bids` was invoked because the collected count reached the number of
known workers. -/
def handle_bid_response (nworkers : Nat) (st : PlannerState) (event : PyAttrs) :
    Except PyError (PlannerState × Bool) := do
  let order_code ← pyAttrStr event "doc_number"
  if (st.orders.lookup order_code).isNone || (st.active_bids.lookup order_code).isNone then
    pure (st, false)
  else
    let bids := ((st.active_bids.lookup order_code).getD []) ++ [event]
    let st := { st with active_bids := pyDictSet st.active_bids order_code bids }
    if bids.length = nworkers then pure (st, true) else pure (st, false)

/-- `PlannerAgent.start_allocation_process` (planner_agent.py lines
192–215): nothing is emitted for an order with no remaining work; otherwise
the active-bid entry is initialized and `BidRequest(order_code=...,
doc_number=..., work_hours=..., due_date=...)` is constructed — a call whose
`doc_number` keyword the `BidRequest.__init__` of events.py does not
accept. -/
def start_allocation_process (st : PlannerState) (o : Order) (ts : ℚ) :
    Except PyError (PlannerState × Option PyAttrs) :=
  if o.remaining_work_hours ≤ 0 then .ok (st, none)
  else
    let st := { st with active_bids := pyDictSet st.active_bids o.doc_number [] }
    match pyCallCheck BidRequestParams ["order_code", "doc_number", "work_hours", "due_date"] with
    | some bad => .error (.typeError bad)
    | none =>
      .ok (st, some [("type", .str "bid_request"), ("timestamp", .rat ts),
        ("order_code", .str o.code), ("work_hours", .rat o.remaining_work_hours),
        ("due_date", .rat o.due_date)])

/-- Coordinator state with order `A` (document number `D1`) known and a bid
round open for it with no responses collected yet. -/
def exBidState : PlannerState :=
  { orders := [("D1", exOrderA)], active_bids := [("D1", [])], schedule := {} }

/-- C7: a bidding round never closes, and an error does surface.  With one
known worker and an open round with zero collected responses, the very
`BidResponse` that per the claim should close the round (collected count 1 =
1 worker) instead raises `AttributeError`: the handler reads
`event.doc_number`, an attribute `BidResponse.__init__` never sets.  This
contradicts the claim that the round closes when the counts match and that
no error surfaces. -/
theorem bid_response_handling_raises :
    ((exBidState.active_bids.lookup "D1").getD []).length + 1 = 1 ∧
      handle_bid_response 1 exBidState (BidResponseInit "A" 1 8 [(0, 8)] 0) =
        .error (.attributeError "doc_number") := by
  exact ⟨rfl, rfl⟩

/-- C8: the bid events do not carry the document number.  Emitting a
`BidRequest` as the coordinator does raises `TypeError` (the `doc_number`
keyword is not in `BidRequest.__init__`'s signature), and a `BidResponse`
built exactly as `WorkerAgent.handle_bid_request` builds one has no
`doc_number` attribute for the coordinator to read.  This contradicts the
claim that both events carry the document number. -/
theorem bid_events_lack_doc_number :
    start_allocation_process exBidState exOrderA 0 =
        .error (.typeError "doc_number") ∧
      pyGetAttr (BidResponseInit "A" 1 8 [(0, 8)] 0) "doc_number" = none := by
  refine ⟨?_, rfl⟩
  norm_num [start_allocation_process, exOrderA, Order.remaining_work_hours,
    Order.pending_qty, exBidState, pyCallCheck, BidRequestParams, pyDictSet]
  rfl

/-- C9: an inbound `OrderUpdated`, `PriorityChange` or `ProgressUpdate`
referring to an unknown order is not silently ignored: each handler first
evaluates `event.doc_number`, an attribute none of these event classes sets,
so the call raises `AttributeError` before the unknown-order check is
reached.  The events below are built exactly as `ExcelMonitor`,
the dashboard, and `WorkerAgent.report_progress` build them, and refer to an
order the empty coordinator state does not know. -/
theorem unknown_order_events_raise :
    handle_order_updated exScheduler 0 {} (OrderUpdatedInit "A" 10 0 5 none 0) =
        .error (.attributeError "doc_number") ∧
      handle_priority_change exScheduler 0 {} (PriorityChangeInit "A" 3 0) =
        .error (.attributeError "doc_number") ∧
      handle_progress_update exScheduler 0 {} (ProgressUpdateInit "A" 1 2 0 0) =
        .error (.attributeError "doc_number") := by
  exact ⟨rfl, rfl, rfl⟩

/-! Infrastructure for the scheduler invariants. -/

/-- Total hours of a list of allocations. -/
def sumHours (l : List Allocation) : ℚ :=
  (l.map Allocation.hours).sum

/-- Total hours allocated to worker `wid` on `day` in a list of allocations. -/
def sumWorkerDayHours (l : List Allocation) (wid day : Int) : ℚ :=
  sumHours (l.filter (fun a => a.worker_id == wid && a.allocation_date == day))

theorem sumHours_append (l₁ l₂ : List Allocation) :
    sumHours (l₁ ++ l₂) = sumHours l₁ + sumHours l₂ := by
  simp [sumHours]

theorem sumWorkerDayHours_append (l₁ l₂ : List Allocation) (wid day : Int) :
    sumWorkerDayHours (l₁ ++ l₂) wid day =
      sumWorkerDayHours l₁ wid day + sumWorkerDayHours l₂ wid day := by
  simp [sumWorkerDayHours, sumHours, List.filter_append]

/-- Inserting into a list is a permutation of consing. -/
theorem sortedInsert_perm (le : α → α → Bool) (x : α) (l : List α) :
    (sortedInsert le x l).Perm (x :: l) := by
  induction l with
  | nil => exact List.Perm.refl _
  | cons y ys ih =>
    unfold sortedInsert
    split
    · exact List.Perm.refl _
    · exact (ih.cons y).trans (List.Perm.swap x y ys)

/-- `pySorted` permutes its input. -/
theorem pySorted_perm (le : α → α → Bool) (l : List α) :
    (pySorted le l).Perm l := by
  induction l with
  | nil => exact List.Perm.refl _
  | cons x xs ih => exact (sortedInsert_perm le x _).trans (ih.cons x)

/-- The identity-carrying part of a worker: everything except the mutable
availability map. -/
def Worker.core (w : Worker) : Int × String × ℚ × List String :=
  (w.id, w.name, w.hours_per_day, w.skills)

theorem allocate_hours_core (w : Worker) (day : Int) (h : ℚ) :
    (w.allocate_hours day h).2.core = w.core := rfl

/-- Every worker of `ws'` has a core-equal counterpart in `ws`. -/
def coreSub (ws' ws : List Worker) : Prop :=
  ∀ w' ∈ ws', ∃ w ∈ ws, w'.core = w.core

theorem coreSub_refl (ws : List Worker) : coreSub ws ws :=
  fun w hw => ⟨w, hw, rfl⟩

theorem coreSub_trans {ws₁ ws₂ ws₃ : List Worker}
    (h₁ : coreSub ws₁ ws₂) (h₂ : coreSub ws₂ ws₃) : coreSub ws₁ ws₃ := by
  intro w hw
  obtain ⟨v, hv, hc⟩ := h₁ w hw
  obtain ⟨u, hu, hc'⟩ := h₂ v hv
  exact ⟨u, hu, hc.trans hc'⟩

/-- Replacing a list entry by a core-equal worker preserves `coreSub`. -/
theorem coreSub_set {ws : List Worker} {i : Nat} {w w' : Worker}
    (hget : ws[i]? = some w) (hcore : w'.core = w.core) :
    coreSub (ws.set i w') ws := by
  intro u hu
  rcases List.mem_or_eq_of_mem_set hu with h | h
  · exact ⟨u, h, rfl⟩
  · exact ⟨w, List.getElem?_mem hget, h ▸ hcore⟩

/-- The worker referenced by an allocation: present in `ws`, carrying the
allocation's worker id, and eligible for the allocation's order code. -/
def allocWorkerOk (ws : List Worker) (a : Allocation) : Prop :=
  ∃ w ∈ ws, w.id = a.worker_id ∧ eligible w a.order_code = true

/-- `allocWorkerOk` only depends on worker cores, so it transports along
`coreSub`. -/
theorem allocWorkerOk_mono {ws' ws : List Worker} (h : coreSub ws' ws)
    {a : Allocation} (ha : allocWorkerOk ws' a) : allocWorkerOk ws a := by
  obtain ⟨w', hw', hid, helig⟩ := ha
  obtain ⟨w, hw, hcore⟩ := h w' hw'
  have hid' : w'.id = w.id := congrArg Prod.fst hcore
  have hskills : w'.skills = w.skills := congrArg (fun c => c.2.2.2) hcore
  refine ⟨w, hw, hid' ▸ hid, ?_⟩
  unfold eligible at helig ⊢
  rw [← hskills]
  exact helig

/-- Members of `eligibleIdx` point at eligible workers. -/
theorem eligibleIdx_spec {ws : List Worker} {code : String} {i : Nat}
    (hi : i ∈ eligibleIdx ws code) :
    ∃ w, ws[i]? = some w ∧ eligible w code = true := by
  unfold eligibleIdx at hi
  rw [List.mem_filter] at hi
  obtain ⟨-, hp⟩ := hi
  cases hg : ws[i]? with
  | none => rw [hg] at hp; exact absurd hp (by simp)
  | some w => rw [hg] at hp; exact ⟨w, rfl, hp⟩

theorem sumHours_cons (a : Allocation) (l : List Allocation) :
    sumHours (a :: l) = a.hours + sumHours l := by
  simp [sumHours]

theorem sumHours_nil : sumHours [] = 0 := rfl

/-- The allocated amount never exceeds the requested hours. -/
theorem allocate_hours_le_hours (w : Worker) (day : Int) (h : ℚ) :
    (w.allocate_hours day h).1 ≤ h :=
  min_le_right _ _

/-- The allocated amount never exceeds the availability at the moment of the
call. -/
theorem allocate_hours_le_available (w : Worker) (day : Int) (h : ℚ) :
    (w.allocate_hours day h).1 ≤ w.get_available_hours day :=
  min_le_left _ _

/-- Behaviour of the inner worker loop: it appends allocations for `code` on
`day` with positive hours made by eligible workers of `ws`, the appended
hours equal the drop in remaining hours, the final remaining hours are
either untouched or nonnegative, and workers change only in their
availability. -/
theorem allocWorkers_spec (code : String) (day : Int) (idxs : List Nat)
    (ws : List Worker) (sched : WorkSchedule) (rem : ℚ)
    (helig : ∀ i ∈ idxs, ∃ w, ws[i]? = some w ∧ eligible w code = true) :
    ∃ Δ,
      (allocWorkers code day idxs ws sched rem).2.1.allocations =
          sched.allocations ++ Δ ∧
        (∀ a ∈ Δ, a.order_code = code ∧ a.allocation_date = day ∧ 0 < a.hours ∧
          allocWorkerOk ws a) ∧
        sumHours Δ = rem - (allocWorkers code day idxs ws sched rem).2.2 ∧
        ((allocWorkers code day idxs ws sched rem).2.2 = rem ∨
          0 ≤ (allocWorkers code day idxs ws sched rem).2.2) ∧
        coreSub (allocWorkers code day idxs ws sched rem).1 ws := by
  induction idxs generalizing ws sched rem with
  | nil =>
    exact ⟨[], by simp [allocWorkers], by simp, by simp [allocWorkers, sumHours],
      Or.inl rfl, coreSub_refl ws⟩
  | cons i rest ih =>
    cases hg : ws[i]? with
    | none =>
      refine ⟨[], ?_, by simp, ?_, ?_, ?_⟩ <;>
        simp [allocWorkers, hg, sumHours, coreSub_refl]
    | some w =>
      have hi : i < ws.length := (List.getElem?_eq_some.mp hg).1
      have hwelig : eligible w code = true := by
        obtain ⟨w₀, hq, he⟩ := helig i (List.mem_cons_self i rest)
        rw [hg, Option.some.injEq] at hq
        exact hq ▸ he
      set p := w.allocate_hours day rem with hp
      have hple : p.1 ≤ rem := min_le_right _ _
      have hcoreset : coreSub (ws.set i p.2) ws :=
        coreSub_set hg (allocate_hours_core w day rem)
      have helig' : ∀ j ∈ rest, ∃ w', (ws.set i p.2)[j]? = some w' ∧
          eligible w' code = true := by
        intro j hj
        obtain ⟨w₀, hq, he⟩ := helig j (List.mem_cons_of_mem i hj)
        by_cases hji : j = i
        · subst hji
          refine ⟨p.2, List.getElem?_set_self hi, ?_⟩
          rw [hg, Option.some.injEq] at hq
          subst hq
          exact he
        · exact ⟨w₀, by rw [List.getElem?_set_ne (fun h => hji h.symm)]; exact hq, he⟩
      have hunfold : allocWorkers code day (i :: rest) ws sched rem =
          (if 0 < p.1 then
            if rem - p.1 ≤ 0 then
              (ws.set i p.2, sched.add_allocation ⟨code, w.id, day, p.1, false⟩, rem - p.1)
            else allocWorkers code day rest (ws.set i p.2)
              (sched.add_allocation ⟨code, w.id, day, p.1, false⟩) (rem - p.1)
          else allocWorkers code day rest (ws.set i p.2) sched rem) := by
        rw [allocWorkers, hg]
      rw [hunfold]
      by_cases hpos : 0 < p.1
      · by_cases hstop : rem - p.1 ≤ 0
        · rw [if_pos hpos, if_pos hstop]
          refine ⟨[⟨code, w.id, day, p.1, false⟩], ?_, ?_, ?_, ?_, hcoreset⟩
          · simp [WorkSchedule.add_allocation]
          · intro a ha
            rw [List.mem_singleton] at ha
            subst ha
            exact ⟨rfl, rfl, hpos, w, List.getElem?_mem hg, rfl, hwelig⟩
          · simp [sumHours]
          · right
            simp only
            linarith
        · rw [if_pos hpos, if_neg hstop]
          obtain ⟨Δr, h1, h2, h3, h4, h5⟩ := ih (ws.set i p.2)
            (sched.add_allocation ⟨code, w.id, day, p.1, false⟩) (rem - p.1) helig'
          refine ⟨⟨code, w.id, day, p.1, false⟩ :: Δr, ?_, ?_, ?_, ?_, ?_⟩
          · rw [h1]
            simp [WorkSchedule.add_allocation]
          · intro a ha
            rcases List.mem_cons.mp ha with h | h
            · subst h
              exact ⟨rfl, rfl, hpos, w, List.getElem?_mem hg, rfl, hwelig⟩
            · obtain ⟨c1, c2, c3, c4⟩ := h2 a h
              exact ⟨c1, c2, c3, allocWorkerOk_mono hcoreset c4⟩
          · rw [sumHours_cons, h3]
            simp only
            ring
          · right
            rcases h4 with h | h
            · rw [h]
              linarith
            · exact h
          · exact coreSub_trans h5 hcoreset
      · rw [if_neg hpos]
        obtain ⟨Δr, h1, h2, h3, h4, h5⟩ := ih (ws.set i p.2) sched rem helig'
        refine ⟨Δr, h1, ?_, h3, h4, coreSub_trans h5 hcoreset⟩
        intro a ha
        obtain ⟨c1, c2, c3, c4⟩ := h2 a ha
        exact ⟨c1, c2, c3, allocWorkerOk_mono hcoreset c4⟩

/-- Behaviour of the day loop: same as the worker loop, but allocation dates
range over the given work dates. -/
theorem allocDays_spec (code : String) (dates : List Int)
    (ws : List Worker) (sched : WorkSchedule) (rem : ℚ) :
    ∃ Δ,
      (allocDays code dates ws sched rem).2.1.allocations =
          sched.allocations ++ Δ ∧
        (∀ a ∈ Δ, a.order_code = code ∧ a.allocation_date ∈ dates ∧ 0 < a.hours ∧
          allocWorkerOk ws a) ∧
        sumHours Δ = rem - (allocDays code dates ws sched rem).2.2 ∧
        ((allocDays code dates ws sched rem).2.2 = rem ∨
          0 ≤ (allocDays code dates ws sched rem).2.2) ∧
        coreSub (allocDays code dates ws sched rem).1 ws := by
  induction dates generalizing ws sched rem with
  | nil =>
    exact ⟨[], by simp [allocDays], by simp, by simp [allocDays, sumHours],
      Or.inl rfl, coreSub_refl ws⟩
  | cons day rest ih =>
    have hunfold : allocDays code (day :: rest) ws sched rem =
        (if rem ≤ 0 then (ws, sched, rem)
         else
           allocDays code rest
             (allocWorkers code day (pySorted (availLe ws day) (eligibleIdx ws code))
               ws sched rem).1
             (allocWorkers code day (pySorted (availLe ws day) (eligibleIdx ws code))
               ws sched rem).2.1
             (allocWorkers code day (pySorted (availLe ws day) (eligibleIdx ws code))
               ws sched rem).2.2) := by
      rw [allocDays]
    rw [hunfold]
    by_cases hstop : rem ≤ 0
    · rw [if_pos hstop]
      exact ⟨[], by simp, by simp, by simp [sumHours], Or.inl rfl, coreSub_refl ws⟩
    · rw [if_neg hstop]
      have helig : ∀ i ∈ pySorted (availLe ws day) (eligibleIdx ws code),
          ∃ w, ws[i]? = some w ∧ eligible w code = true := by
        intro i hi
        exact eligibleIdx_spec ((pySorted_perm _ _).mem_iff.mp hi)
      obtain ⟨Δ₁, g1, g2, g3, g4, g5⟩ :=
        allocWorkers_spec code day (pySorted (availLe ws day) (eligibleIdx ws code))
          ws sched rem helig
      obtain ⟨Δ₂, h1, h2, h3, h4, h5⟩ := ih
        (allocWorkers code day (pySorted (availLe ws day) (eligibleIdx ws code))
          ws sched rem).1
        (allocWorkers code day (pySorted (availLe ws day) (eligibleIdx ws code))
          ws sched rem).2.1
        (allocWorkers code day (pySorted (availLe ws day) (eligibleIdx ws code))
          ws sched rem).2.2
      refine ⟨Δ₁ ++ Δ₂, ?_, ?_, ?_, ?_, coreSub_trans h5 g5⟩
      · rw [h1, g1, List.append_assoc]
      · intro a ha
        rcases List.mem_append.mp ha with h | h
        · obtain ⟨c1, c2, c3, c4⟩ := g2 a h
          exact ⟨c1, c2 ▸ List.mem_cons_self day rest, c3, c4⟩
        · obtain ⟨c1, c2, c3, c4⟩ := h2 a h
          exact ⟨c1, List.mem_cons_of_mem day c2, c3, allocWorkerOk_mono g5 c4⟩
      · rw [sumHours_append, g3, h3]
        ring
      · rcases h4 with h | h
        · rw [h]
          exact g4
        · right
          exact h

/-- Behaviour of the order loop: the schedule grows by allocations dated in
the work-date window, with positive hours, made by eligible workers, for
codes of the processed orders. -/
theorem allocOrders_spec (dates : List Int) (os : List Order)
    (ws : List Worker) (sched : WorkSchedule) :
    ∃ Δ,
      (allocOrders dates os ws sched).2.allocations = sched.allocations ++ Δ ∧
        (∀ a ∈ Δ, a.allocation_date ∈ dates ∧ 0 < a.hours ∧ allocWorkerOk ws a ∧
          a.order_code ∈ os.map Order.code) ∧
        coreSub (allocOrders dates os ws sched).1 ws := by
  induction os generalizing ws sched with
  | nil => exact ⟨[], by simp [allocOrders], by simp, coreSub_refl ws⟩
  | cons o rest ih =>
    have hunfold : allocOrders dates (o :: rest) ws sched =
        (if o.remaining_work_hours ≤ 0 then allocOrders dates rest ws sched
         else
           allocOrders dates rest
             (allocDays o.code dates ws sched o.remaining_work_hours).1
             (allocDays o.code dates ws sched o.remaining_work_hours).2.1) := by
      rw [allocOrders]
    rw [hunfold]
    by_cases hskip : o.remaining_work_hours ≤ 0
    · rw [if_pos hskip]
      obtain ⟨Δ, h1, h2, h3⟩ := ih ws sched
      refine ⟨Δ, h1, ?_, h3⟩
      intro a ha
      obtain ⟨c1, c2, c3, c4⟩ := h2 a ha
      exact ⟨c1, c2, c3, by simpa using Or.inr (by simpa using c4)⟩
    · rw [if_neg hskip]
      obtain ⟨Δ₁, g1, g2, g3, g4, g5⟩ :=
        allocDays_spec o.code dates ws sched o.remaining_work_hours
      obtain ⟨Δ₂, h1, h2, h3⟩ := ih
        (allocDays o.code dates ws sched o.remaining_work_hours).1
        (allocDays o.code dates ws sched o.remaining_work_hours).2.1
      refine ⟨Δ₁ ++ Δ₂, ?_, ?_, coreSub_trans h3 g5⟩
      · rw [h1, g1, List.append_assoc]
      · intro a ha
        rcases List.mem_append.mp ha with h | h
        · obtain ⟨c1, c2, c3, c4⟩ := g2 a h
          exact ⟨c2, c3, c4, by simp [c1]⟩
        · obtain ⟨c1, c2, c3, c4⟩ := h2 a h
          exact ⟨c1, c2, allocWorkerOk_mono g5 c3, by simpa using Or.inr (by simpa using c4)⟩

/-- Dates produced by `workDates` lie in `[start, start + n)`. -/
theorem workDates_bounds {start : Int} {n : Nat} {d : Int}
    (h : d ∈ workDates start n) : start ≤ d ∧ d < start + (n : Int) := by
  unfold workDates at h
  obtain ⟨i, hi, rfl⟩ := List.mem_map.mp h
  rw [List.mem_range] at hi
  omega

/-- Resetting availabilities keeps every worker core-represented. -/
theorem coreSub_reset (ws : List Worker) :
    coreSub (ws.map (fun w => { w with availability := [] })) ws := by
  intro w' hw'
  rw [List.mem_map] at hw'
  obtain ⟨w, hw, rfl⟩ := hw'
  exact ⟨w, hw, rfl⟩

/-- The boolean eligibility test as a proposition. -/
theorem eligible_iff (w : Worker) (code : String) :
    eligible w code = true ↔ (w.skills.isEmpty = true ∨ code ∈ w.skills) := by
  simp [eligible]

/-- A successful `create_schedule` run is the order-loop run on the reset
workers over the work-date window, applied to the prioritized orders. -/
theorem create_schedule_eq_some {S : Scheduler} {orders : List Order}
    {start_date : Int} {days_ahead : Nat} {sched : WorkSchedule} {wsF : List Worker}
    (h : S.create_schedule orders start_date days_ahead = some (sched, wsF)) :
    ∃ pr, prioritizeOrders S.priority_calculator orders start_date = some pr ∧
      sched = (allocOrders (workDates start_date days_ahead) pr
        (S.workers.map (fun w => { w with availability := [] })) {}).2 ∧
      wsF = (allocOrders (workDates start_date days_ahead) pr
        (S.workers.map (fun w => { w with availability := [] })) {}).1 := by
  unfold Scheduler.create_schedule at h
  cases hpr : prioritizeOrders S.priority_calculator orders start_date with
  | none => rw [hpr] at h; exact absurd h (by simp)
  | some pr =>
    rw [hpr] at h
    simp only [Option.bind_eq_bind, Option.some_bind, Option.pure_def,
      Option.some.injEq, Prod.mk.injEq] at h
    exact ⟨pr, rfl, h.1.symm, h.2.symm⟩

/-- C10: every allocation of a schedule built by `create_schedule` has
strictly positive hours, a date inside the window
`[start_date, start_date + days_ahead − 1]`, and a worker of the scheduler's
pool that is eligible for the allocation's order code (empty skill set or
the code among the skills). -/
theorem allocation_window_eligibility (S : Scheduler) (orders : List Order)
    (start_date : Int) (days_ahead : Nat) (sched : WorkSchedule) (wsF : List Worker)
    (h : S.create_schedule orders start_date days_ahead = some (sched, wsF)) :
    ∀ a ∈ sched.allocations, 0 < a.hours ∧
      start_date ≤ a.allocation_date ∧
      a.allocation_date < start_date + (days_ahead : Int) ∧
      ∃ w ∈ S.workers, w.id = a.worker_id ∧
        (w.skills.isEmpty = true ∨ a.order_code ∈ w.skills) := by
  obtain ⟨pr, hpr, hsched, hws⟩ := create_schedule_eq_some h
  obtain ⟨Δ, h1, h2, h3⟩ := allocOrders_spec (workDates start_date days_ahead) pr
    (S.workers.map (fun w => { w with availability := [] })) {}
  intro a ha
  rw [hsched, h1] at ha
  simp only [List.nil_append] at ha
  obtain ⟨hdate, hhours, hok, -⟩ := h2 a ha
  obtain ⟨hlo, hhi⟩ := workDates_bounds hdate
  obtain ⟨w, hw, hid, helig⟩ := allocWorkerOk_mono (coreSub_reset S.workers) hok
  exact ⟨hhours, hlo, hhi, w, hw, hid, (eligible_iff w a.order_code).mp helig⟩

/-- Witness for C10 on the one-worker, one-order fixture: the single
allocation of the resulting schedule has positive hours, lies in the window
`[0, 3)`, and is assigned to the eligible worker 1. -/
theorem allocation_window_eligibility_witness :
    0 < (⟨"A", 1, 0, 5, false⟩ : Allocation).hours ∧
      (0 : Int) ≤ (⟨"A", 1, 0, 5, false⟩ : Allocation).allocation_date ∧
      (⟨"A", 1, 0, 5, false⟩ : Allocation).allocation_date < 0 + ((3 : Nat) : Int) ∧
      ∃ w ∈ exScheduler.workers,
        w.id = (⟨"A", 1, 0, 5, false⟩ : Allocation).worker_id ∧
        (w.skills.isEmpty = true ∨ (⟨"A", 1, 0, 5, false⟩ : Allocation).order_code ∈ w.skills) := by
  have h := allocation_window_eligibility exScheduler [exOrderA] 0 3
    ⟨[⟨"A", 1, 0, 5, false⟩]⟩ [⟨1, "W1", 8, [], [(0, 3)]⟩]
    (by
      repeat
        first
        | rfl
        | norm_num [Scheduler.create_schedule, prioritizeOrders, exScheduler, exOrderA,
            exCalc, exWorker, PriorityCalculator.compute_priority, datetimeDate,
            Order.pending_qty, PriorityLevel.ofValue, pySorted, sortedInsert, priorityKeyLe,
            allocOrders, allocDays, allocWorkers, workDates, eligibleIdx, eligible, availLe,
            Worker.allocate_hours, Worker.get_available_hours, Order.remaining_work_hours,
            WorkSchedule.add_allocation, List.range_succ, List.mapM.loop, PriorityLevel.value]
        | simp only [List.lookup, Int.reduceBEq, beq_self_eq_true, Option.getD_some,
            Option.getD_none])
  exact h ⟨"A", 1, 0, 5, false⟩ (List.mem_singleton.mpr rfl)

/-- The code and remaining work hours of each order survive prioritization:
the prioritized list carries the same multiset of (code, remaining-hours)
pairs as the input. -/
theorem prioritizeOrders_key_perm {pc : PriorityCalculator} {orders pr : List Order}
    {today : Int} (h : prioritizeOrders pc orders today = some pr) :
    (pr.map (fun o => (o.code, o.remaining_work_hours))).Perm
      (orders.map (fun o => (o.code, o.remaining_work_hours))) := by
  unfold prioritizeOrders at h
  have hmap : ∀ (os l' : List Order),
      os.mapM (fun o => do
        let p ← pc.compute_priority o today
        pure { o with calculated_priority := p }) = some l' →
      l'.map (fun o => (o.code, o.remaining_work_hours)) =
        os.map (fun o => (o.code, o.remaining_work_hours)) := by
    intro os
    induction os with
    | nil =>
      intro l' hl
      rw [List.mapM_nil] at hl
      cases hl
      rfl
    | cons o rest ih =>
      intro l' hl
      rw [List.mapM_cons] at hl
      cases hp : pc.compute_priority o today with
      | none => rw [hp] at hl; exact absurd hl (by simp)
      | some p =>
        rw [hp] at hl
        cases hr : rest.mapM (fun o => do
            let p ← pc.compute_priority o today
            pure { o with calculated_priority := p }) with
        | none => rw [hr] at hl; exact absurd hl (by simp)
        | some lr =>
          rw [hr] at hl
          simp only [Option.bind_eq_bind, Option.some_bind, Option.pure_def,
            Option.some.injEq] at hl
          subst hl
          simp only [List.map_cons]
          rw [ih lr hr]
          rfl
  cases hm : orders.mapM (fun o => do
      let p ← pc.compute_priority o today
      pure { o with calculated_priority := p }) with
  | none => rw [hm] at h; exact absurd h (by simp)
  | some l' =>
    rw [hm] at h
    simp only [Option.bind_eq_bind, Option.some_bind, Option.pure_def,
      Option.some.injEq] at h
    subst h
    have hperm := (pySorted_perm priorityKeyLe l').map
      (fun o => (o.code, o.remaining_work_hours))
    rw [hmap orders l' hm] at hperm
    exact hperm

/-- Per-order accounting of the order loop: when order codes are distinct,
the allocations added for one order's code total at most that order's
remaining hours, and an order with no remaining work contributes none. -/
theorem allocOrders_code_sum (dates : List Int) (os : List Order)
    (ws : List Worker) (sched : WorkSchedule) (o : Order) :
    o ∈ os → (os.map Order.code).Nodup →
    ∃ Δ, (allocOrders dates os ws sched).2.allocations = sched.allocations ++ Δ ∧
      (0 < o.remaining_work_hours →
        sumHours (Δ.filter (fun a => a.order_code == o.code)) ≤
          o.remaining_work_hours) ∧
      (o.remaining_work_hours ≤ 0 →
        Δ.filter (fun a => a.order_code == o.code) = []) := by
  induction os generalizing ws sched with
  | nil => intro ho _; exact absurd ho (by simp)
  | cons o' rest ih =>
    intro ho hnd
    have hunfold : allocOrders dates (o' :: rest) ws sched =
        (if o'.remaining_work_hours ≤ 0 then allocOrders dates rest ws sched
         else
           allocOrders dates rest
             (allocDays o'.code dates ws sched o'.remaining_work_hours).1
             (allocDays o'.code dates ws sched o'.remaining_work_hours).2.1) := by
      rw [allocOrders]
    have hnd' : (rest.map Order.code).Nodup := (List.nodup_cons.mp hnd).2
    have hhead : o'.code ∉ rest.map Order.code := (List.nodup_cons.mp hnd).1
    rw [hunfold]
    rcases List.mem_cons.mp ho with rfl | hmem
    · by_cases hskip : o.remaining_work_hours ≤ 0
      · rw [if_pos hskip]
        obtain ⟨Δ, h1, h2, -⟩ := allocOrders_spec dates rest ws sched
        refine ⟨Δ, h1, fun hpos => absurd hskip (not_le.mpr hpos), fun _ => ?_⟩
        rw [List.filter_eq_nil_iff]
        intro a ha
        obtain ⟨-, -, -, hcode⟩ := h2 a ha
        rw [beq_iff_eq]
        intro heq
        exact hhead (heq ▸ hcode)
      · rw [if_neg hskip]
        obtain ⟨Δ₁, g1, g2, g3, g4, -⟩ :=
          allocDays_spec o.code dates ws sched o.remaining_work_hours
        obtain ⟨Δ₂, h1, h2, -⟩ := allocOrders_spec dates rest
          (allocDays o.code dates ws sched o.remaining_work_hours).1
          (allocDays o.code dates ws sched o.remaining_work_hours).2.1
        refine ⟨Δ₁ ++ Δ₂, by rw [h1, g1, List.append_assoc], fun hpos => ?_,
          fun hneg => absurd hneg hskip⟩
        rw [List.filter_append]
        have hf1 : Δ₁.filter (fun a => a.order_code == o.code) = Δ₁ := by
          rw [List.filter_eq_self]
          intro a ha
          rw [beq_iff_eq]
          exact (g2 a ha).1
        have hf2 : Δ₂.filter (fun a => a.order_code == o.code) = [] := by
          rw [List.filter_eq_nil_iff]
          intro a ha
          obtain ⟨-, -, -, hcode⟩ := h2 a ha
          rw [beq_iff_eq]
          intro heq
          exact hhead (heq ▸ hcode)
        rw [hf1, hf2, List.append_nil]
        have hrem : 0 ≤ (allocDays o.code dates ws sched o.remaining_work_hours).2.2 := by
          rcases g4 with h | h
          · rw [h]; linarith
          · exact h
        rw [g3]
        linarith
    · have hco : o.code ≠ o'.code := by
        intro hc
        exact hhead (hc ▸ List.mem_map.mpr ⟨o, hmem, rfl⟩)
      by_cases hskip : o'.remaining_work_hours ≤ 0
      · rw [if_pos hskip]
        exact ih ws sched hmem hnd'
      · rw [if_neg hskip]
        obtain ⟨Δ₁, g1, g2, -, -, -⟩ :=
          allocDays_spec o'.code dates ws sched o'.remaining_work_hours
        obtain ⟨Δ₂, h1, h2, h3⟩ := ih
          (allocDays o'.code dates ws sched o'.remaining_work_hours).1
          (allocDays o'.code dates ws sched o'.remaining_work_hours).2.1 hmem hnd'
        have hf1 : Δ₁.filter (fun a => a.order_code == o.code) = [] := by
          rw [List.filter_eq_nil_iff]
          intro a ha
          rw [beq_iff_eq]
          intro hc
          exact hco (hc.symm.trans (g2 a ha).1)
        refine ⟨Δ₁ ++ Δ₂, by rw [h1, g1, List.append_assoc], ?_, ?_⟩
        · intro hpos
          rw [List.filter_append, hf1, List.nil_append]
          exact h2 hpos
        · intro hneg
          rw [List.filter_append, hf1, List.nil_append]
          exact h3 hneg

/-- C4: with pairwise-distinct order codes, the allocations of a schedule
built by `create_schedule` that belong to an order (those carrying its code)
total at most the order's `remaining_work_hours` as of schedule-build time,
and an order with `remaining_work_hours ≤ 0` — including negative pending —
receives no allocations at all. -/
theorem order_hours_bounded (S : Scheduler) (orders : List Order)
    (start_date : Int) (days_ahead : Nat) (sched : WorkSchedule) (wsF : List Worker)
    (hnd : (orders.map Order.code).Nodup)
    (h : S.create_schedule orders start_date days_ahead = some (sched, wsF)) :
    ∀ o ∈ orders,
      (0 < o.remaining_work_hours →
        sumHours (sched.get_order_schedule o.code) ≤ o.remaining_work_hours) ∧
      (o.remaining_work_hours ≤ 0 → sched.get_order_schedule o.code = []) := by
  obtain ⟨pr, hpr, hsched, -⟩ := create_schedule_eq_some h
  have hperm := prioritizeOrders_key_perm hpr
  have hcodes : (pr.map Order.code).Perm (orders.map Order.code) := by
    have hp := hperm.map Prod.fst
    simpa [List.map_map, Function.comp] using hp
  have hndpr : (pr.map Order.code).Nodup := hcodes.nodup_iff.mpr hnd
  intro o ho
  have hkey : (o.code, o.remaining_work_hours) ∈
      pr.map (fun o => (o.code, o.remaining_work_hours)) :=
    hperm.mem_iff.mpr (List.mem_map.mpr ⟨o, ho, rfl⟩)
  obtain ⟨o', ho', heq⟩ := List.mem_map.mp hkey
  have hc : o'.code = o.code := congrArg Prod.fst heq
  have hr : o'.remaining_work_hours = o.remaining_work_hours := congrArg Prod.snd heq
  obtain ⟨Δ, h1, h2, h3⟩ := allocOrders_code_sum (workDates start_date days_ahead) pr
    (S.workers.map (fun w => { w with availability := [] })) {} o' ho' hndpr
  rw [hc, hr] at h2 h3
  unfold WorkSchedule.get_order_schedule
  rw [hsched, h1]
  simp only [List.nil_append]
  exact ⟨h2, h3⟩

/-- Witness for C4 on the fixture with orders `A` (5 remaining hours, fully
allocated: 5 ≤ 5) and `C` (negative pending, no allocations). -/
theorem order_hours_bounded_witness :
    ((0 < exOrderA.remaining_work_hours →
        sumHours (WorkSchedule.get_order_schedule ⟨[⟨"A", 1, 0, 5, false⟩]⟩ exOrderA.code) ≤
          exOrderA.remaining_work_hours) ∧
      (exOrderA.remaining_work_hours ≤ 0 →
        WorkSchedule.get_order_schedule ⟨[⟨"A", 1, 0, 5, false⟩]⟩ exOrderA.code = [])) ∧
    ((0 < exOrderC.remaining_work_hours →
        sumHours (WorkSchedule.get_order_schedule ⟨[⟨"A", 1, 0, 5, false⟩]⟩ exOrderC.code) ≤
          exOrderC.remaining_work_hours) ∧
      (exOrderC.remaining_work_hours ≤ 0 →
        WorkSchedule.get_order_schedule ⟨[⟨"A", 1, 0, 5, false⟩]⟩ exOrderC.code = [])) := by
  have h := order_hours_bounded exScheduler [exOrderA, exOrderC] 0 3
    ⟨[⟨"A", 1, 0, 5, false⟩]⟩ [⟨1, "W1", 8, [], [(0, 3)]⟩] (by decide)
    (by
      repeat
        first
        | rfl
        | norm_num [Scheduler.create_schedule, prioritizeOrders, exScheduler, exOrderA,
            exOrderC, exCalc, exWorker, PriorityCalculator.compute_priority, datetimeDate,
            Order.pending_qty, PriorityLevel.ofValue, pySorted, sortedInsert, priorityKeyLe,
            allocOrders, allocDays, allocWorkers, workDates, eligibleIdx, eligible, availLe,
            Worker.allocate_hours, Worker.get_available_hours, Order.remaining_work_hours,
            WorkSchedule.add_allocation, List.range_succ, List.mapM.loop, PriorityLevel.value]
        | simp only [List.lookup, Int.reduceBEq, beq_self_eq_true, Option.getD_some,
            Option.getD_none])
  exact ⟨h exOrderA (by simp), h exOrderC (by simp)⟩

/-- Capacity invariant: every worker's availability on every date is
nonnegative and, together with the hours already allocated to that worker's
id on that date, equals the worker's nominal hours per day. -/
def capInv (ws : List Worker) (allocs : List Allocation) : Prop :=
  ∀ (i : Nat) (w : Worker), ws[i]? = some w → ∀ d : Int,
    0 ≤ w.get_available_hours d ∧
    w.get_available_hours d + sumWorkerDayHours allocs w.id d = w.hours_per_day

theorem get_available_allocate_self (w : Worker) (day : Int) (h : ℚ) :
    (w.allocate_hours day h).2.get_available_hours day =
      w.get_available_hours day - (w.allocate_hours day h).1 := by
  simp [Worker.allocate_hours, Worker.get_available_hours, List.lookup]

theorem get_available_allocate_ne (w : Worker) (day : Int) (h : ℚ) (d : Int)
    (hne : d ≠ day) :
    (w.allocate_hours day h).2.get_available_hours d = w.get_available_hours d := by
  simp [Worker.allocate_hours, Worker.get_available_hours, List.lookup,
    beq_eq_false_iff_ne.mpr hne]

theorem sumWorkerDayHours_singleton (a : Allocation) (wid d : Int) :
    sumWorkerDayHours [a] wid d =
      if a.worker_id = wid ∧ a.allocation_date = d then a.hours else 0 := by
  unfold sumWorkerDayHours sumHours
  by_cases h1 : a.worker_id = wid <;> by_cases h2 : a.allocation_date = d
  · simp [List.filter, beq_iff_eq.mpr h1, beq_iff_eq.mpr h2, h1, h2]
  · simp [List.filter, beq_iff_eq.mpr h1, beq_eq_false_iff_ne.mpr h2, h1, h2]
  · simp [List.filter, beq_eq_false_iff_ne.mpr h1, h1, h2]
  · simp [List.filter, beq_eq_false_iff_ne.mpr h1, h1, h2]

theorem sumWorkerDayHours_nil (wid d : Int) : sumWorkerDayHours [] wid d = 0 := rfl

/-- Two distinct positions of a duplicate-free list hold distinct values. -/
theorem nodup_getElem?_ne {l : List α} (hnd : l.Nodup) {i j : Nat} (hij : i ≠ j)
    {a b : α} (ha : l[i]? = some a) (hb : l[j]? = some b) : a ≠ b := by
  obtain ⟨hia, hga⟩ := List.getElem?_eq_some.mp ha
  obtain ⟨hib, hgb⟩ := List.getElem?_eq_some.mp hb
  intro hab
  apply hij
  have hinj := List.nodup_iff_injective_get.mp hnd
  have : l.get ⟨i, hia⟩ = l.get ⟨j, hib⟩ := by
    simp only [List.get_eq_getElem]
    rw [hga, hgb, hab]
  have := hinj this
  exact congrArg Fin.val this

/-- Replacing a position by an element with the same image leaves the mapped
list unchanged. -/
theorem map_set_of_eq {l : List α} {i : Nat} {x : α} {f : α → β}
    (hg : ∀ w, l[i]? = some w → f x = f w) : (l.set i x).map f = l.map f := by
  apply List.ext_getElem?
  intro j
  by_cases hj : i = j
  · subst hj
    rw [List.getElem?_map, List.getElem?_map]
    cases hg' : l[i]? with
    | none =>
      have hlen : l.length ≤ i := by
        rcases Nat.lt_or_ge i l.length with hlt | hge
        · rw [List.getElem?_eq_getElem hlt] at hg'
          cases hg'
        · exact hge
      have hlen' : (l.set i x).length ≤ i := by
        rw [List.length_set]
        exact hlen
      rw [List.getElem?_eq_none hlen']
    | some w =>
      have hlt : i < l.length := (List.getElem?_eq_some.mp hg').1
      rw [List.getElem?_set_self hlt]
      simp [hg w hg']
  · rw [List.getElem?_map, List.getElem?_map, List.getElem?_set_ne hj]

/-- Hours contributed by one freshly recorded allocation. -/
theorem sumWorkerDayHours_alloc (code : String) (wid day : Int) (h : ℚ) (b : Bool)
    (wid' d : Int) :
    sumWorkerDayHours [⟨code, wid, day, h, b⟩] wid' d =
      if wid = wid' ∧ day = d then h else 0 := by
  simpa using sumWorkerDayHours_singleton ⟨code, wid, day, h, b⟩ wid' d

/-- One `allocate_hours` step at a valid index preserves the capacity
invariant, provided the requested hours are positive, worker ids are
pairwise distinct, and the recorded allocation carries the worker's id. -/
theorem capInv_allocate {ws : List Worker} {allocs : List Allocation} {i : Nat}
    {w : Worker} (code : String) {day : Int} {rem : ℚ}
    (hg : ws[i]? = some w) (hrem : 0 < rem)
    (hnd : (ws.map Worker.id).Nodup) (hinv : capInv ws allocs) :
    capInv (ws.set i (w.allocate_hours day rem).2)
      (if 0 < (w.allocate_hours day rem).1
        then allocs ++ [⟨code, w.id, day, (w.allocate_hours day rem).1, false⟩]
        else allocs) := by
  have hbase := hinv i w hg
  have hlt : i < ws.length := (List.getElem?_eq_some.mp hg).1
  have hid : (w.allocate_hours day rem).2.id = w.id := rfl
  have hhpd : (w.allocate_hours day rem).2.hours_per_day = w.hours_per_day := rfl
  by_cases hp : 0 < (w.allocate_hours day rem).1
  · rw [if_pos hp]
    intro j u hj d
    by_cases hij : j = i
    · subst hij
      rw [List.getElem?_set_self hlt, Option.some.injEq] at hj
      subst hj
      by_cases hd : d = day
      · subst hd
        rw [get_available_allocate_self, hid, hhpd, sumWorkerDayHours_append,
          sumWorkerDayHours_alloc]
        have hc : w.id = w.id ∧ d = d := ⟨rfl, rfl⟩
        rw [if_pos hc]
        have hle := allocate_hours_le_available w d rem
        constructor
        · linarith
        · linarith [(hbase d).2]
      · rw [get_available_allocate_ne w day rem d hd, hid, hhpd,
          sumWorkerDayHours_append, sumWorkerDayHours_alloc]
        have hc : ¬ (w.id = w.id ∧ day = d) := fun hc => hd hc.2.symm
        rw [if_neg hc]
        constructor
        · exact (hbase d).1
        · linarith [(hbase d).2]
    · rw [List.getElem?_set_ne (fun h => hij h.symm)] at hj
      have hbase' := hinv j u hj d
      have hne : u.id ≠ w.id := by
        refine nodup_getElem?_ne hnd (fun h => hij h) ?_ ?_
        · rw [List.getElem?_map, hj]
          rfl
        · rw [List.getElem?_map, hg]
          rfl
      rw [sumWorkerDayHours_append, sumWorkerDayHours_alloc]
      have hc : ¬ (w.id = u.id ∧ day = d) := fun hc => hne hc.1.symm
      rw [if_neg hc]
      constructor
      · exact hbase'.1
      · linarith [hbase'.2]
  · rw [if_neg hp]
    have hav0 : w.get_available_hours day = 0 := by
      rcases le_total (w.get_available_hours day) rem with hle | hle
      · have he : (w.allocate_hours day rem).1 = w.get_available_hours day :=
          min_eq_left hle
        have h1 := not_lt.mp hp
        rw [he] at h1
        linarith [(hbase day).1]
      · have he : (w.allocate_hours day rem).1 = rem := min_eq_right hle
        have h1 := not_lt.mp hp
        rw [he] at h1
        linarith
    have hallocz : (w.allocate_hours day rem).1 = 0 := by
      have he : (w.allocate_hours day rem).1 =
          min (w.get_available_hours day) rem := rfl
      rw [he, hav0]
      exact min_eq_left (by linarith)
    intro j u hj d
    by_cases hij : j = i
    · subst hij
      rw [List.getElem?_set_self hlt, Option.some.injEq] at hj
      subst hj
      by_cases hd : d = day
      · subst hd
        rw [get_available_allocate_self, hid, hhpd, hallocz, hav0]
        have hb := hbase d
        rw [hav0] at hb
        constructor
        · linarith
        · linarith [hb.2]
      · rw [get_available_allocate_ne w day rem d hd, hid, hhpd]
        exact hbase d
    · rw [List.getElem?_set_ne (fun h => hij h.symm)] at hj
      exact hinv j u hj d

/-- The inner worker loop preserves the capacity invariant and leaves ids
and nominal hours unchanged. -/
theorem allocWorkers_capInv (code : String) (day : Int) (idxs : List Nat)
    (ws : List Worker) (sched : WorkSchedule) (rem : ℚ) (hrem : 0 < rem)
    (hnd : (ws.map Worker.id).Nodup) (hinv : capInv ws sched.allocations) :
    capInv (allocWorkers code day idxs ws sched rem).1
        (allocWorkers code day idxs ws sched rem).2.1.allocations ∧
      (allocWorkers code day idxs ws sched rem).1.map Worker.id =
        ws.map Worker.id ∧
      (allocWorkers code day idxs ws sched rem).1.map Worker.hours_per_day =
        ws.map Worker.hours_per_day := by
  induction idxs generalizing ws sched rem with
  | nil => exact ⟨hinv, rfl, rfl⟩
  | cons i rest ih =>
    cases hg : ws[i]? with
    | none =>
      have hunfold : allocWorkers code day (i :: rest) ws sched rem =
          (ws, sched, rem) := by
        rw [allocWorkers, hg]
      rw [hunfold]
      exact ⟨hinv, rfl, rfl⟩
    | some w =>
      have hmapid : (ws.set i (w.allocate_hours day rem).2).map Worker.id =
          ws.map Worker.id :=
        map_set_of_eq (fun w' hw' => by
          rw [hg, Option.some.injEq] at hw'
          subst hw'
          rfl)
      have hmaphpd : (ws.set i (w.allocate_hours day rem).2).map Worker.hours_per_day =
          ws.map Worker.hours_per_day :=
        map_set_of_eq (fun w' hw' => by
          rw [hg, Option.some.injEq] at hw'
          subst hw'
          rfl)
      have hnd' : ((ws.set i (w.allocate_hours day rem).2).map Worker.id).Nodup := by
        rw [hmapid]
        exact hnd
      have hstep := @capInv_allocate ws sched.allocations i w code day rem hg hrem hnd hinv
      have hunfold : allocWorkers code day (i :: rest) ws sched rem =
          (if 0 < (w.allocate_hours day rem).1 then
            if rem - (w.allocate_hours day rem).1 ≤ 0 then
              (ws.set i (w.allocate_hours day rem).2,
                sched.add_allocation ⟨code, w.id, day, (w.allocate_hours day rem).1, false⟩,
                rem - (w.allocate_hours day rem).1)
            else allocWorkers code day rest (ws.set i (w.allocate_hours day rem).2)
              (sched.add_allocation ⟨code, w.id, day, (w.allocate_hours day rem).1, false⟩)
              (rem - (w.allocate_hours day rem).1)
          else allocWorkers code day rest (ws.set i (w.allocate_hours day rem).2)
            sched rem) := by
        rw [allocWorkers, hg]
      rw [hunfold]
      by_cases hpos : 0 < (w.allocate_hours day rem).1
      · rw [if_pos hpos] at hstep ⊢
        by_cases hstop : rem - (w.allocate_hours day rem).1 ≤ 0
        · rw [if_pos hstop]
          exact ⟨hstep, hmapid, hmaphpd⟩
        · rw [if_neg hstop]
          obtain ⟨c1, c2, c3⟩ := ih (ws.set i (w.allocate_hours day rem).2)
            (sched.add_allocation ⟨code, w.id, day, (w.allocate_hours day rem).1, false⟩)
            (rem - (w.allocate_hours day rem).1) (by linarith [not_le.mp hstop]) hnd' hstep
          exact ⟨c1, c2.trans hmapid, c3.trans hmaphpd⟩
      · rw [if_neg hpos] at hstep ⊢
        obtain ⟨c1, c2, c3⟩ := ih (ws.set i (w.allocate_hours day rem).2)
          sched rem hrem hnd' hstep
        exact ⟨c1, c2.trans hmapid, c3.trans hmaphpd⟩

/-- The day loop preserves the capacity invariant and leaves ids and nominal
hours unchanged. -/
theorem allocDays_capInv (code : String) (dates : List Int)
    (ws : List Worker) (sched : WorkSchedule) (rem : ℚ)
    (hnd : (ws.map Worker.id).Nodup) (hinv : capInv ws sched.allocations) :
    capInv (allocDays code dates ws sched rem).1
        (allocDays code dates ws sched rem).2.1.allocations ∧
      (allocDays code dates ws sched rem).1.map Worker.id = ws.map Worker.id ∧
      (allocDays code dates ws sched rem).1.map Worker.hours_per_day =
        ws.map Worker.hours_per_day := by
  induction dates generalizing ws sched rem with
  | nil => exact ⟨hinv, rfl, rfl⟩
  | cons day rest ih =>
    have hunfold : allocDays code (day :: rest) ws sched rem =
        (if rem ≤ 0 then (ws, sched, rem)
         else
           allocDays code rest
             (allocWorkers code day (pySorted (availLe ws day) (eligibleIdx ws code))
               ws sched rem).1
             (allocWorkers code day (pySorted (availLe ws day) (eligibleIdx ws code))
               ws sched rem).2.1
             (allocWorkers code day (pySorted (availLe ws day) (eligibleIdx ws code))
               ws sched rem).2.2) := by
      rw [allocDays]
    rw [hunfold]
    by_cases hstop : rem ≤ 0
    · rw [if_pos hstop]
      exact ⟨hinv, rfl, rfl⟩
    · rw [if_neg hstop]
      obtain ⟨g1, g2, g3⟩ := allocWorkers_capInv code day
        (pySorted (availLe ws day) (eligibleIdx ws code)) ws sched rem
        (not_le.mp hstop) hnd hinv
      obtain ⟨c1, c2, c3⟩ := ih
        (allocWorkers code day (pySorted (availLe ws day) (eligibleIdx ws code))
          ws sched rem).1
        (allocWorkers code day (pySorted (availLe ws day) (eligibleIdx ws code))
          ws sched rem).2.1
        (allocWorkers code day (pySorted (availLe ws day) (eligibleIdx ws code))
          ws sched rem).2.2
        (by rw [g2]; exact hnd) g1
      exact ⟨c1, c2.trans g2, c3.trans g3⟩

/-- The order loop preserves the capacity invariant and leaves ids and
nominal hours unchanged. -/
theorem allocOrders_capInv (dates : List Int) (os : List Order)
    (ws : List Worker) (sched : WorkSchedule)
    (hnd : (ws.map Worker.id).Nodup) (hinv : capInv ws sched.allocations) :
    capInv (allocOrders dates os ws sched).1
        (allocOrders dates os ws sched).2.allocations ∧
      (allocOrders dates os ws sched).1.map Worker.id = ws.map Worker.id ∧
      (allocOrders dates os ws sched).1.map Worker.hours_per_day =
        ws.map Worker.hours_per_day := by
  induction os generalizing ws sched with
  | nil => exact ⟨hinv, rfl, rfl⟩
  | cons o rest ih =>
    have hunfold : allocOrders dates (o :: rest) ws sched =
        (if o.remaining_work_hours ≤ 0 then allocOrders dates rest ws sched
         else
           allocOrders dates rest
             (allocDays o.code dates ws sched o.remaining_work_hours).1
             (allocDays o.code dates ws sched o.remaining_work_hours).2.1) := by
      rw [allocOrders]
    rw [hunfold]
    by_cases hskip : o.remaining_work_hours ≤ 0
    · rw [if_pos hskip]
      exact ih ws sched hnd hinv
    · rw [if_neg hskip]
      obtain ⟨g1, g2, g3⟩ := allocDays_capInv o.code dates ws sched
        o.remaining_work_hours hnd hinv
      obtain ⟨c1, c2, c3⟩ := ih
        (allocDays o.code dates ws sched o.remaining_work_hours).1
        (allocDays o.code dates ws sched o.remaining_work_hours).2.1
        (by rw [g2]; exact hnd) g1
      exact ⟨c1, c2.trans g2, c3.trans g3⟩

/-- C1: for every schedule built by `create_schedule` (over workers with
distinct ids and nonnegative nominal hours), no worker's allocations on any
single date total more than that worker's nominal `hours_per_day`; and every
single `allocate_hours` call returns at most the worker's remaining
availability for that day at the moment of the call. -/
theorem worker_daily_capacity (S : Scheduler) (orders : List Order)
    (start_date : Int) (days_ahead : Nat) (sched : WorkSchedule) (wsF : List Worker)
    (hnd : (S.workers.map Worker.id).Nodup)
    (hpos : ∀ w ∈ S.workers, 0 ≤ w.hours_per_day)
    (h : S.create_schedule orders start_date days_ahead = some (sched, wsF)) :
    (∀ w ∈ S.workers, ∀ d : Int,
      sumWorkerDayHours sched.allocations w.id d ≤ w.hours_per_day) ∧
    (∀ (w : Worker) (day : Int) (hours : ℚ),
      (w.allocate_hours day hours).1 ≤ w.get_available_hours day) := by
  refine ⟨?_, fun w day hours => allocate_hours_le_available w day hours⟩
  obtain ⟨pr, hpr, hsched, hws⟩ := create_schedule_eq_some h
  have hmapid0 : (S.workers.map (fun w => { w with availability := [] })).map
      Worker.id = S.workers.map Worker.id := by
    rw [List.map_map]
    rfl
  have hmaphpd0 : (S.workers.map (fun w => { w with availability := [] })).map
      Worker.hours_per_day = S.workers.map Worker.hours_per_day := by
    rw [List.map_map]
    rfl
  have hnd0 : ((S.workers.map (fun w => { w with availability := [] })).map
      Worker.id).Nodup := by
    rw [hmapid0]
    exact hnd
  have hinv0 : capInv (S.workers.map (fun w => { w with availability := [] }))
      (({} : WorkSchedule)).allocations := by
    intro i w hg d
    rw [List.getElem?_map] at hg
    cases hg' : S.workers[i]? with
    | none =>
      rw [hg'] at hg
      cases hg
    | some w0 =>
      rw [hg', Option.map_some', Option.some.injEq] at hg
      subst hg
      refine ⟨hpos w0 (List.getElem?_mem hg'), ?_⟩
      show ({ w0 with availability := [] } : Worker).get_available_hours d +
        sumWorkerDayHours [] ({ w0 with availability := [] } : Worker).id d = _
      rw [sumWorkerDayHours_nil]
      show w0.hours_per_day + 0 = w0.hours_per_day
      ring
  obtain ⟨c1, c2, c3⟩ := allocOrders_capInv (workDates start_date days_ahead) pr
    (S.workers.map (fun w => { w with availability := [] })) {} hnd0 hinv0
  intro w hw d
  obtain ⟨i, hlt, hgi⟩ := List.getElem_of_mem hw
  have hgw : S.workers[i]? = some w := by
    rw [List.getElem?_eq_getElem hlt, hgi]
  have hmid : (allocOrders (workDates start_date days_ahead) pr
      (S.workers.map (fun w => { w with availability := [] })) {}).1.map Worker.id =
      S.workers.map Worker.id := c2.trans hmapid0
  have hmhpd : (allocOrders (workDates start_date days_ahead) pr
      (S.workers.map (fun w => { w with availability := [] })) {}).1.map
      Worker.hours_per_day = S.workers.map Worker.hours_per_day := c3.trans hmaphpd0
  have hlen : i < (allocOrders (workDates start_date days_ahead) pr
      (S.workers.map (fun w => { w with availability := [] })) {}).1.length := by
    have hl := congrArg List.length hmid
    simp only [List.length_map] at hl
    rw [hl]
    exact hlt
  have hu : (allocOrders (workDates start_date days_ahead) pr
      (S.workers.map (fun w => { w with availability := [] })) {}).1[i]? =
      some ((allocOrders (workDates start_date days_ahead) pr
        (S.workers.map (fun w => { w with availability := [] })) {}).1.get ⟨i, hlen⟩) := by
    rw [List.getElem?_eq_getElem hlen]
    rfl
  have hid : ((allocOrders (workDates start_date days_ahead) pr
      (S.workers.map (fun w => { w with availability := [] })) {}).1.get
        ⟨i, hlen⟩).id = w.id := by
    have hq := congrArg (fun l => l[i]?) hmid
    simp only at hq
    rw [List.getElem?_map, List.getElem?_map, hu, hgw, Option.map_some',
      Option.map_some', Option.some.injEq] at hq
    exact hq
  have hhpd : ((allocOrders (workDates start_date days_ahead) pr
      (S.workers.map (fun w => { w with availability := [] })) {}).1.get
        ⟨i, hlen⟩).hours_per_day = w.hours_per_day := by
    have hq := congrArg (fun l => l[i]?) hmhpd
    simp only at hq
    rw [List.getElem?_map, List.getElem?_map, hu, hgw, Option.map_some',
      Option.map_some', Option.some.injEq] at hq
    exact hq
  have hcap := c1 i _ hu d
  rw [hid, hhpd] at hcap
  rw [hsched]
  linarith [hcap.1, hcap.2]

/-- Witness for C1 on the one-worker, one-order fixture: worker 1's hours on
day 0 total 5 ≤ 8, and a concrete `allocate_hours` call stays within the
available hours. -/
theorem worker_daily_capacity_witness :
    sumWorkerDayHours [⟨"A", 1, 0, 5, false⟩] exWorker.id 0 ≤ exWorker.hours_per_day ∧
      (exWorker.allocate_hours 0 5).1 ≤ exWorker.get_available_hours 0 := by
  have h := worker_daily_capacity exScheduler [exOrderA] 0 3
    ⟨[⟨"A", 1, 0, 5, false⟩]⟩ [⟨1, "W1", 8, [], [(0, 3)]⟩] (by decide) (by decide)
    (by
      repeat
        first
        | rfl
        | norm_num [Scheduler.create_schedule, prioritizeOrders, exScheduler, exOrderA,
            exCalc, exWorker, PriorityCalculator.compute_priority, datetimeDate,
            Order.pending_qty, PriorityLevel.ofValue, pySorted, sortedInsert, priorityKeyLe,
            allocOrders, allocDays, allocWorkers, workDates, eligibleIdx, eligible, availLe,
            Worker.allocate_hours, Worker.get_available_hours, Order.remaining_work_hours,
            WorkSchedule.add_allocation, List.range_succ, List.mapM.loop, PriorityLevel.value]
        | simp only [List.lookup, Int.reduceBEq, beq_self_eq_true, Option.getD_some,
            Option.getD_none])
  exact ⟨h.1 exWorker (List.mem_singleton.mpr rfl) 0, h.2 exWorker 0 5⟩

theorem pyDictSet_lookup_eq {κ β : Type} [BEq κ] [LawfulBEq κ]
    (d : List (κ × β)) (k : κ) (v : β) :
    (pyDictSet d k v).lookup k = some v := by
  induction d with
  | nil => simp [pyDictSet, List.lookup]
  | cons kv rest ih =>
    rcases kv with ⟨k', v'⟩
    unfold pyDictSet
    by_cases hk : k' = k
    · subst hk
      simp [List.lookup]
    · rw [if_neg (by simpa using hk)]
      simp only [List.lookup, beq_eq_false_iff_ne.mpr (fun h => hk h.symm)]
      exact ih

theorem pyDictSet_lookup_ne {κ β : Type} [BEq κ] [LawfulBEq κ]
    (d : List (κ × β)) (k k' : κ) (v : β) (hne : k' ≠ k) :
    (pyDictSet d k v).lookup k' = d.lookup k' := by
  induction d with
  | nil => simp [pyDictSet, List.lookup, beq_eq_false_iff_ne.mpr hne]
  | cons kv rest ih =>
    rcases kv with ⟨k'', v''⟩
    unfold pyDictSet
    by_cases hk : k'' = k
    · subst hk
      rw [if_pos (beq_self_eq_true k'')]
      simp only [List.lookup, beq_eq_false_iff_ne.mpr hne]
    · rw [if_neg (by simpa using hk)]
      simp only [List.lookup]
      cases hbe : k' == k'' with
      | true => rfl
      | false => exact ih

theorem checkDelaysBody_nil {sched : WorkSchedule} {o : Order}
    (hal : sched.get_order_schedule o.code = []) (delays : List (String × Int)) :
    checkDelaysBody sched delays o = delays := by
  unfold checkDelaysBody
  rw [hal]

theorem checkDelaysBody_cons {sched : WorkSchedule} {o : Order} {a : Allocation}
    {rest : List Allocation} (hal : sched.get_order_schedule o.code = a :: rest)
    (delays : List (String × Int)) :
    checkDelaysBody sched delays o =
      (if datetimeDate o.due_date < maxAllocDate (a :: rest) then
        pyDictSet delays o.code (maxAllocDate (a :: rest) - datetimeDate o.due_date)
      else delays) := by
  unfold checkDelaysBody
  rw [hal]

/-- The fold of `check_delays` never touches keys outside the processed
orders' codes. -/
theorem check_delays_fold_skip (sched : WorkSchedule) :
    ∀ (orders : List Order) (acc : List (String × Int)) (c : String),
      c ∉ orders.map Order.code →
      (orders.foldl (checkDelaysBody sched) acc).lookup c = acc.lookup c := by
  intro orders
  induction orders with
  | nil =>
    intro acc c _
    rfl
  | cons o rest ih =>
    intro acc c hc
    have hc' : c ∉ rest.map Order.code := fun h => hc (List.mem_cons_of_mem _ h)
    have hco : c ≠ o.code := fun h => hc (h ▸ List.mem_cons_self _ _)
    rw [List.foldl_cons, ih _ c hc']
    cases hal : sched.get_order_schedule o.code with
    | nil => rw [checkDelaysBody_nil hal]
    | cons a rest' =>
      rw [checkDelaysBody_cons hal]
      split
      · exact pyDictSet_lookup_ne acc o.code c _ hco
      · rfl

/-- C6: over a schedule and orders with pairwise-distinct codes,
`check_delays` maps an order's code to a delay exactly when the order has at
least one allocation and its latest allocation date exceeds the order's due
date, with the delay equal to that difference; an order with no allocations
never appears in the delay map, even if its due date is already past. -/
theorem check_delays_spec (sched : WorkSchedule) (orders : List Order)
    (hnd : (orders.map Order.code).Nodup) :
    ∀ o ∈ orders,
      (check_delays sched orders).lookup o.code =
        (if sched.get_order_schedule o.code ≠ [] ∧
            datetimeDate o.due_date < maxAllocDate (sched.get_order_schedule o.code)
          then some (maxAllocDate (sched.get_order_schedule o.code) -
            datetimeDate o.due_date)
          else none) := by
  unfold check_delays
  have main : ∀ (os : List Order) (acc : List (String × Int)) (o : Order),
      o ∈ os → (os.map Order.code).Nodup → acc.lookup o.code = none →
      (os.foldl (checkDelaysBody sched) acc).lookup o.code =
        (if sched.get_order_schedule o.code ≠ [] ∧
            datetimeDate o.due_date < maxAllocDate (sched.get_order_schedule o.code)
          then some (maxAllocDate (sched.get_order_schedule o.code) -
            datetimeDate o.due_date)
          else none) := by
    intro os
    induction os with
    | nil =>
      intro acc o ho _ _
      exact absurd ho (by simp)
    | cons o' rest ih =>
      intro acc o ho hnd hacc
      have hhead : o'.code ∉ rest.map Order.code := (List.nodup_cons.mp hnd).1
      have hnd' : (rest.map Order.code).Nodup := (List.nodup_cons.mp hnd).2
      rw [List.foldl_cons]
      rcases List.mem_cons.mp ho with rfl | hmem
      · rw [check_delays_fold_skip sched rest _ o.code hhead]
        cases hal : sched.get_order_schedule o.code with
        | nil =>
          rw [checkDelaysBody_nil hal acc, if_neg (fun hc => hc.1 rfl)]
          exact hacc
        | cons a rest' =>
          rw [checkDelaysBody_cons hal acc]
          by_cases hdue : datetimeDate o.due_date < maxAllocDate (a :: rest')
          · rw [if_pos hdue, pyDictSet_lookup_eq,
              if_pos ⟨List.cons_ne_nil a rest', hdue⟩]
          · rw [if_neg hdue, hacc, if_neg (fun hc => hdue hc.2)]
      · have hco : o.code ≠ o'.code := by
          intro hc
          exact hhead (hc ▸ List.mem_map.mpr ⟨o, hmem, rfl⟩)
        refine ih _ o hmem hnd' ?_
        cases hal : sched.get_order_schedule o'.code with
        | nil =>
          rw [checkDelaysBody_nil hal acc]
          exact hacc
        | cons a rest' =>
          rw [checkDelaysBody_cons hal acc]
          split
          · rw [pyDictSet_lookup_ne acc o'.code o.code _ hco]
            exact hacc
          · exact hacc
  intro o ho
  exact main orders [] o ho hnd rfl

/-- The schedule produced for order `B` on the one-worker fixture: 8 + 8 + 4
hours over days 0–2. -/
def exSchedB : WorkSchedule :=
  ⟨[⟨"B", 1, 0, 8, false⟩, ⟨"B", 1, 1, 8, false⟩, ⟨"B", 1, 2, 4, false⟩]⟩

/-- Witness for C6: order `B` is due on day 0 but completes on day 2, so the
delay map holds exactly the 2-day delay under its code. -/
theorem check_delays_spec_witness :
    (check_delays exSchedB [exOrderB]).lookup exOrderB.code =
        (if exSchedB.get_order_schedule exOrderB.code ≠ [] ∧
            datetimeDate exOrderB.due_date <
              maxAllocDate (exSchedB.get_order_schedule exOrderB.code)
          then some (maxAllocDate (exSchedB.get_order_schedule exOrderB.code) -
            datetimeDate exOrderB.due_date)
          else none) ∧
      (check_delays exSchedB [exOrderB]).lookup "B" = some 2 := by
  refine ⟨check_delays_spec exSchedB [exOrderB] (by decide) exOrderB
    (List.mem_singleton.mpr rfl), ?_⟩
  decide

end OrderHelper